import Mathlib

/-!
A shallow embedding of the `unsafe_fn` procedural macro (src/src/lib.rs).

The macro rewrites a function or method declaration into a pair of
declarations: an inner function `__unsafe_fn_<name>` keeping the original
body, and an outer function with the original name whose body only forwards
the parameters to the inner one.  We embed the `syn` data the macro
inspects (patterns, function arguments, signatures), the two `Fold`/`Visit`
helpers `RemoveMut` and `HasSelfType`, the splitting loop of
`unsafe_fn_impl`, and the two entry points `unsafe_fn` and `safe_body`.
A small value/binding semantics lets us compare invoking the produced pair
with invoking the original body.
-/

namespace UnsafeFnModel

/-- Identifiers of the Rust program are plain strings. -/
abbrev Ident := String

/-- Token trees: the part of the Rust syntax that `HasSelfType` walks.
`item` marks a nested item definition (the visitor does not descend into
those); `seq`/`nil` build sequences; `ident` is an identifier token. -/
inductive Tok where
  | ident (s : String)
  | item (body : Tok)
  | seq (a b : Tok)
  | nil
deriving DecidableEq, Repr

/-- Types are kept as token trees (only their identifier tokens matter,
for the `Self` scan). -/
abbrev Ty := Tok

/-- A function body (`syn::Block`), kept as a token tree. -/
abbrev Block := Tok

/-- Patterns, restricted to the shapes `unsafe_fn_impl` distinguishes:
`Pat::Ident` without a sub-pattern, `Pat::Ident` with an `@` sub-pattern,
the wildcard `_`, and composite patterns (tuple/struct destructurings are
represented by binary pairing).  The code only tests `if let Pat::Ident`. -/
inductive Pat where
  | patIdent (mutability : Bool) (ident : Ident)
  | atPat (mutability : Bool) (ident : Ident) (subpat : Pat)
  | wild
  | pair (a b : Pat)
deriving DecidableEq, Repr

/-- `syn::FnArg`: a receiver (`self`, `&self`, `&mut self`, `mut self`) or
a typed argument `pat : ty` with its attributes. -/
inductive FnArg where
  | receiver (reference : Bool) (mutability : Bool)
  | typed (attrs : List Ident) (pat : Pat) (ty : Ty)
deriving DecidableEq, Repr

/-- The `RemoveMut` fold on patterns.  The overridden `fold_pat_ident`
returns the `PatIdent` with `mutability = None` and does not recurse into
its sub-pattern; the default fold recurses into composite patterns. -/
def removeMutPat : Pat → Pat
  | .patIdent _ i => .patIdent false i
  | .atPat _ i p => .atPat false i p
  | .wild => .wild
  | .pair a b => .pair (removeMutPat a) (removeMutPat b)

/-- The `RemoveMut` fold on a whole `FnArg`: `fold_receiver` drops the
receiver's mutability, `fold_pat_ident` drops a binding's mutability. -/
def removeMutArg : FnArg → FnArg
  | .receiver r _ => .receiver r false
  | .typed attrs pat ty => .typed attrs (removeMutPat pat) ty

/-- The top-level binding identifier of a pattern, when the pattern is a
`Pat::Ident` (mirrors `if let Pat::Ident(i) = pat.as_ref()`). -/
def patTopIdent : Pat → Option Ident
  | .patIdent _ i => some i
  | .atPat _ i _ => some i
  | .wild => none
  | .pair _ _ => none

/-- Whether a `FnArg` binds `self`: a receiver, or a typed argument whose
top-level binding identifier is literally `self` (`self: Box<Self>`). -/
def isSelfParam : FnArg → Bool
  | .receiver _ _ => true
  | .typed _ pat _ => patTopIdent pat == some "self"

/-- The `HasSelfType` visitor on token trees: true iff the identifier
`Self` occurs outside every nested `item` (the overridden `visit_item`
does not recurse). -/
def tokHasSelf : Tok → Bool
  | .ident s => s == "Self"
  | .item _ => false
  | .seq a b => tokHasSelf a || tokHasSelf b
  | .nil => false

/-- Generic parameters of a signature (`syn::Generics.params`): lifetimes,
type parameters and const parameters, in declaration order. -/
inductive GenericParam where
  | lifetime (n : Ident)
  | typeParam (n : Ident)
  | constParam (n : Ident)
deriving DecidableEq, Repr

/-- `syn::Generics`: the parameter list, and the where clause kept as a
token tree (`none` when absent). -/
structure Generics where
  params : List GenericParam
  whereClause : Option Tok
deriving DecidableEq, Repr

/-- The identifiers of the type parameters, in order
(`generics.type_params().map(|x| &x.ident)`). -/
def typeParamIdents (g : Generics) : List Ident :=
  g.params.filterMap fun p =>
    match p with
    | .typeParam n => some n
    | _ => none

/-- `syn::Signature`, with the fields `unsafe_fn_impl` destructures. -/
structure Signature where
  constness : Bool
  asyncness : Bool
  unsafety : Bool
  abi : Option Ty
  ident : Ident
  generics : Generics
  inputs : List FnArg
  variadic : Bool
  output : Ty
deriving DecidableEq, Repr

/-- `syn::Visibility`. -/
inductive Vis where
  | publicVis
  | crateVis
  | inherited
deriving DecidableEq, Repr

/-- The `FnOrMethod` struct of the source: the common shape of an
`ItemFn` and a `TraitItemMethod`. -/
structure FnOrMethod where
  attrs : List Ident
  vis : Vis
  sig : Signature
  block : Option Block
  semi : Bool
deriving DecidableEq, Repr

/-- The `Kind` enum of the source. -/
inductive Kind where
  | unsafeFn
  | safeBody
deriving DecidableEq, Repr

/-- The diagnostics the macro can emit (§7 of the spec): the two marker
errors of `unsafe_fn_impl`, and the rejection of unsupported items. -/
inductive TransformError where
  | alreadyMarked
  | notMarked
  | unsupportedConstruct
deriving DecidableEq, Repr

/-- How the outer body calls the inner function: `self.inner(args)` for a
receiver, `Self::inner(args)` for a `Self`-referencing associated function,
or a plain call `inner(args)` (with the inner function nested inside the
outer body in the source). -/
inductive Dispatch where
  | selfDot
  | selfQual
  | plain
deriving DecidableEq, Repr

/-- The body of an emitted declaration. -/
inductive DeclBody where
  | noBody
  | origBlock (b : Block)
  | panicCall
  | fwdCall (d : Dispatch) (callee : Ident) (turbo : List Ident) (args : List Ident)
deriving DecidableEq, Repr

/-- One emitted declaration, as the `quote!` blocks assemble it. -/
structure Decl where
  attrs : List Ident
  vis : Vis
  constness : Bool
  asyncness : Bool
  unsafety : Bool
  abi : Option Ty
  ident : Ident
  generics : Generics
  inputs : List FnArg
  variadic : Bool
  output : Ty
  body : DeclBody
deriving DecidableEq, Repr

/-- A trait item (`syn::TraitItemMethod`), the shape `unsafe_fn` first
tries to parse. -/
structure TraitItemMethod where
  attrs : List Ident
  sig : Signature
  defaultBlock : Option Block
  semi : Bool
deriving DecidableEq, Repr

/-- `syn::ItemTrait`, with the fields the macro touches: its restriction
marker and its members. -/
structure ItemTrait where
  unsafety : Bool
  ident : Ident
  items : List TraitItemMethod
deriving DecidableEq, Repr

/-- The token stream an entry point returns, structured: a split pair, a
bodyless trait-method stub with its placeholder, or an `unsafe trait`. -/
inductive Output where
  | split (inner outer : Decl)
  | traitStub (outer placeholder : Decl)
  | unsafeTrait (t : ItemTrait)
deriving DecidableEq, Repr

/-- The derived inner name: `format_ident!("__unsafe_fn_{}", ident)`. -/
def innerNameOf (i : Ident) : Ident := "__unsafe_fn_" ++ i

/-- A synthetic parameter name:
`format_ident!("__unsafe_fn_arg{}", sub_args.len())`. -/
def synthName (n : Nat) : Ident := "__unsafe_fn_arg" ++ Nat.repr n

/-- The loop state of `unsafe_fn_impl`'s parameter walk: the three grown
lists and the `wrap_self` flag. -/
structure SplitState where
  main_param : List FnArg
  sub_param : List FnArg
  sub_args : List Ident
  wrap_self : Bool
deriving DecidableEq, Repr

/-- One iteration of the `for it in inputs.iter()` loop of
`unsafe_fn_impl` (src/src/lib.rs lines 297-327). -/
def splitStep (st : SplitState) (it : FnArg) : SplitState :=
  match it with
  | .receiver _ _ =>
    { st with
      sub_param := st.sub_param ++ [it]
      main_param := st.main_param ++ [removeMutArg it]
      wrap_self := true }
  | .typed attrs pat ty =>
    match patTopIdent pat with
    | some i =>
      let st :=
        { st with
          main_param := st.main_param ++ [removeMutArg it]
          sub_param := st.sub_param ++ [it] }
      if i = "self" then { st with wrap_self := true }
      else { st with sub_args := st.sub_args ++ [i] }
    | none =>
      let name := synthName st.sub_args.length
      { st with
        main_param := st.main_param ++ [.typed attrs (.patIdent false name) ty]
        sub_param := st.sub_param ++ [it]
        sub_args := st.sub_args ++ [name] }

/-- The whole parameter walk, starting from the four empty accumulators. -/
def splitInputs (inputs : List FnArg) : SplitState :=
  inputs.foldl splitStep { main_param := [], sub_param := [], sub_args := [], wrap_self := false }

/-- The `Self`-scan of a signature, as `Visit::visit_signature` reaches
identifier tokens: the function name, the generic parameter names, the
argument patterns and types, the variadic, and the return type.
Receiver arguments carry no identifier tokens. -/
def sigHasSelf (s : Signature) : Bool :=
  s.ident == "Self"
  || (s.generics.params.any fun p =>
        match p with
        | .lifetime n => n == "Self"
        | .typeParam n => n == "Self"
        | .constParam n => n == "Self")
  || (match s.generics.whereClause with
      | some w => tokHasSelf w
      | none => false)
  || (s.inputs.any fun a =>
        match a with
        | .receiver _ _ => false
        | .typed _ pat ty => patHasSelf pat || tokHasSelf ty)
  || (match s.abi with
      | some t => tokHasSelf t
      | none => false)
  || tokHasSelf s.output
where
  /-- Identifier tokens inside a pattern. -/
  patHasSelf : Pat → Bool
    | .patIdent _ i => i == "Self"
    | .atPat _ i p => i == "Self" || patHasSelf p
    | .wild => false
    | .pair a b => patHasSelf a || patHasSelf b

/-- `generics` with `Self: Sized` added to the where clause, as the
bodyless-method branch builds `inner_where`. -/
def addSelfSized (g : Generics) : Generics :=
  { g with
    whereClause :=
      match g.whereClause with
      | some w => some (.seq w (.ident "SelfSized"))
      | none => some (.ident "SelfSized") }

/-- The core transformation `unsafe_fn_impl` (src/src/lib.rs lines
221-378), producing either a diagnostic or the emitted declarations. -/
def unsafe_fn_impl (f : FnOrMethod) (k : Kind) : Except TransformError Output :=
  let s := f.sig
  match k, s.unsafety with
  | .unsafeFn, true => .error .alreadyMarked
  | .safeBody, false => .error .notMarked
  | .unsafeFn, false | .safeBody, true =>
    -- in both remaining cases the emitted outer marker is `unsafe`
    let unsafety := true
    let unsafe_fn_name := innerNameOf s.ident
    match f.block with
    | none =>
      -- bodyless trait method: mark it, and emit a dummy placeholder next to it
      .ok (.traitStub
        { attrs := f.attrs, vis := f.vis, constness := s.constness
          asyncness := s.asyncness, unsafety := unsafety, abi := s.abi
          ident := s.ident, generics := s.generics, inputs := s.inputs
          variadic := s.variadic, output := s.output, body := .noBody }
        { attrs := ["doc(hide)", "inline"], vis := .inherited
          constness := s.constness, asyncness := s.asyncness
          unsafety := false, abi := none, ident := unsafe_fn_name
          generics := addSelfSized s.generics, inputs := s.inputs
          variadic := s.variadic, output := s.output, body := .panicCall })
    | some block =>
      let st := splitInputs s.inputs
      let type_params := typeParamIdents s.generics
      let turbo := type_params
      let dispatch :=
        if st.wrap_self then Dispatch.selfDot
        else if sigHasSelf s || tokHasSelf block then Dispatch.selfQual
        else Dispatch.plain
      .ok (.split
        { attrs := ["doc(hide)", "inline"], vis := .inherited
          constness := s.constness, asyncness := s.asyncness
          unsafety := false, abi := none, ident := unsafe_fn_name
          generics := s.generics, inputs := st.sub_param
          variadic := s.variadic, output := s.output
          body := .origBlock block }
        { attrs := f.attrs, vis := f.vis, constness := s.constness
          asyncness := s.asyncness, unsafety := unsafety, abi := s.abi
          ident := s.ident, generics := s.generics, inputs := st.main_param
          variadic := s.variadic, output := s.output
          body := .fwdCall dispatch unsafe_fn_name turbo st.sub_args })

/-- Conversion `From<ItemFn> for FnOrMethod` is the identity in this
embedding (an `ItemFn` always has a body). -/
def ofTraitItemMethod (m : TraitItemMethod) : FnOrMethod :=
  { attrs := m.attrs, vis := .inherited, sig := m.sig
    block := m.defaultBlock, semi := m.semi }

/-- The input shapes the entry points distinguish: a trait method (tried
first via `parse::<TraitItemMethod>`), a free function/`ItemFn`, a whole
trait, or any other item. -/
inductive MacroInput where
  | traitMethod (m : TraitItemMethod)
  | itemFn (f : FnOrMethod)
  | itemTrait (t : ItemTrait)
  | otherItem
deriving DecidableEq, Repr

/-- The `unsafe_fn` entry point (src/src/lib.rs lines 179-195). -/
def unsafe_fn : MacroInput → Except TransformError Output
  | .traitMethod m => unsafe_fn_impl (ofTraitItemMethod m) .unsafeFn
  | .itemFn f => unsafe_fn_impl f .unsafeFn
  | .itemTrait t => .ok (.unsafeTrait { t with unsafety := true })
  | .otherItem => .error .unsupportedConstruct

/-- The `safe_body` entry point (src/src/lib.rs lines 213-219); an item
that is not a function fails `parse_macro_input! as ItemFn`. -/
def safe_body : MacroInput → Except TransformError Output
  | .traitMethod m => unsafe_fn_impl (ofTraitItemMethod m) .safeBody
  | .itemFn f => unsafe_fn_impl f .safeBody
  | .itemTrait _ => .error .unsupportedConstruct
  | .otherItem => .error .unsupportedConstruct

/-! ## Invocation semantics

To compare calling the emitted pair with calling the original body we give
arguments a value domain with pairing (so composite patterns destructure),
build the environment a parameter list binds from an argument list, and
evaluate the body through an arbitrary evaluation function of that
environment. -/

/-- Argument values: a base value, or a pair (tuples and structs nest). -/
inductive Value where
  | base (n : Nat)
  | vpair (a b : Value)
deriving DecidableEq, Repr

/-- An environment: bindings in declaration order. -/
abbrev Env := List (Ident × Value)

/-- First-match lookup, as a shadowing-free Rust parameter scope reads a
binding. -/
def lookupEnv : Env → Ident → Option Value
  | [], _ => none
  | (k, v) :: rest, i => if k = i then some v else lookupEnv rest i

/-- Matching a pattern against a value: the bindings it produces, in
pattern order, or `none` when the value does not fit the pattern. -/
def bindPat : Pat → Value → Option Env
  | .patIdent _ i, v => some [(i, v)]
  | .atPat _ i p, v => (bindPat p v).map fun b => (i, v) :: b
  | .wild, _ => some []
  | .pair p q, .vpair a b => do
    pure ((← bindPat p a) ++ (← bindPat q b))
  | .pair _ _, .base _ => none

/-- Binding a parameter list against an argument list (one value per
parameter, a receiver binds `self`). -/
def bindParams : List FnArg → List Value → Option Env
  | [], [] => some []
  | .receiver _ _ :: ps, v :: vs =>
    (bindParams ps vs).map fun e => ("self", v) :: e
  | .typed _ pat _ :: ps, v :: vs => do
    pure ((← bindPat pat v) ++ (← bindParams ps vs))
  | [], _ :: _ => none
  | _ :: _, [] => none

/-- Invoking the original declaration: bind its parameter list against the
arguments and evaluate its body in that environment.  `eval` is the
(arbitrary) meaning of a body given an environment. -/
def invokeOriginal (f : FnOrMethod) (eval : Block → Env → Option Value)
    (A : List Value) : Option Value :=
  match f.block with
  | none => none
  | some b => do
    let env ← bindParams f.sig.inputs A
    eval b env

/-- Looking up each forwarding argument in the outer environment. -/
def lookupArgs (e : Env) : List Ident → Option (List Value)
  | [] => some []
  | a :: rest => do
    pure ((← lookupEnv e a) :: (← lookupArgs e rest))

/-- Invoking the emitted pair at its outer declaration: bind the outer
parameter list against the arguments, read the forwarding arguments back
from that environment, dispatch them (a `self.` call passes the receiver
value first), bind the inner parameter list, and evaluate the original
body there. -/
def invokeOutput (out : Output) (eval : Block → Env → Option Value)
    (A : List Value) : Option Value :=
  match out with
  | .split inner outer => do
    let block ←
      match inner.body with
      | .origBlock b => some b
      | _ => none
    match outer.body with
    | .fwdCall d _ _ args => do
      let envOuter ← bindParams outer.inputs A
      let argVals ← lookupArgs envOuter args
      let innerArgs ←
        match d with
        | .selfDot => (lookupEnv envOuter "self").map (· :: argVals)
        | .selfQual => some argVals
        | .plain => some argVals
      let envInner ← bindParams inner.inputs innerArgs
      eval block envInner
    | _ => none
  | _ => none

/-! ## Characterizing the parameter walk

`splitInputs` is a left fold pushing onto four accumulators.  The
following recursions compute the same three lists directly; `n` threads
the running value of `sub_args.len()` (the synthetic-name counter). -/

/-- How many forwarding arguments one parameter contributes: none for a
receiver or a typed `self`, one for every other parameter. -/
def fwdc (a : FnArg) : Nat := if isSelfParam a then 0 else 1

/-- Total forwarding arguments contributed by a parameter list. -/
def fwdCount : List FnArg → Nat
  | [] => 0
  | a :: ps => fwdc a + fwdCount ps

/-- The outer parameter list (`main_param`), given the number `n` of
forwarding arguments accumulated so far. -/
def mainParams : Nat → List FnArg → List FnArg
  | _, [] => []
  | n, it :: rest =>
    match it with
    | .receiver _ _ => removeMutArg it :: mainParams n rest
    | .typed attrs pat ty =>
      match patTopIdent pat with
      | some i =>
        removeMutArg it :: mainParams (if i = "self" then n else n + 1) rest
      | none =>
        .typed attrs (.patIdent false (synthName n)) ty :: mainParams (n + 1) rest

/-- The forwarding-argument list (`sub_args`), given the number `n` of
forwarding arguments accumulated so far. -/
def subArgsFrom : Nat → List FnArg → List Ident
  | _, [] => []
  | n, it :: rest =>
    match it with
    | .receiver _ _ => subArgsFrom n rest
    | .typed _ pat _ =>
      match patTopIdent pat with
      | some i =>
        if i = "self" then subArgsFrom n rest else i :: subArgsFrom (n + 1) rest
      | none => synthName n :: subArgsFrom (n + 1) rest

/-- The fold step grows `sub_args` by exactly `fwdc it`. -/
theorem splitStep_sub_args_length (st : SplitState) (it : FnArg) :
    (splitStep st it).sub_args.length = st.sub_args.length + fwdc it := by
  cases it with
  | receiver r m => simp [splitStep, fwdc, isSelfParam]
  | typed attrs pat ty =>
    cases hp : patTopIdent pat with
    | some i =>
      by_cases hi : i = "self" <;>
        simp [splitStep, fwdc, isSelfParam, hp, hi]
    | none => simp [splitStep, fwdc, isSelfParam, hp]

/-- Closed form of the parameter-walk fold. -/
theorem foldl_splitStep (inputs : List FnArg) (st : SplitState) :
    List.foldl splitStep st inputs =
      { main_param := st.main_param ++ mainParams st.sub_args.length inputs
        sub_param := st.sub_param ++ inputs
        sub_args := st.sub_args ++ subArgsFrom st.sub_args.length inputs
        wrap_self := st.wrap_self || inputs.any isSelfParam } := by
  induction inputs generalizing st with
  | nil => simp [mainParams, subArgsFrom]
  | cons it rest ih =>
    rw [List.foldl_cons, ih]
    cases it with
    | receiver r m =>
      simp [splitStep, mainParams, subArgsFrom, isSelfParam, List.any_cons]
    | typed attrs pat ty =>
      cases hp : patTopIdent pat with
      | some i =>
        by_cases hi : i = "self"
        · simp [splitStep, mainParams, subArgsFrom, isSelfParam, hp, hi,
            List.any_cons, List.append_assoc]
        · have hib : (i == "self") = false := by
            simpa using hi
          simp [splitStep, mainParams, subArgsFrom, isSelfParam, hp, hi, hib,
            List.any_cons, List.append_assoc]
      | none =>
        simp [splitStep, mainParams, subArgsFrom, isSelfParam, hp,
          List.any_cons, List.append_assoc]

/-- `splitInputs` in closed form. -/
theorem splitInputs_eq (inputs : List FnArg) :
    splitInputs inputs =
      { main_param := mainParams 0 inputs
        sub_param := inputs
        sub_args := subArgsFrom 0 inputs
        wrap_self := inputs.any isSelfParam } := by
  simpa using foldl_splitStep inputs
    { main_param := [], sub_param := [], sub_args := [], wrap_self := false }

/-! ## Binding lemmas -/

/-- The identifiers a pattern binds, in pattern order. -/
def patNames : Pat → List Ident
  | .patIdent _ i => [i]
  | .atPat _ i p => i :: patNames p
  | .wild => []
  | .pair a b => patNames a ++ patNames b

/-- The identifiers a parameter binds. -/
def argNames : FnArg → List Ident
  | .receiver _ _ => ["self"]
  | .typed _ pat _ => patNames pat

/-- The identifiers a parameter list binds, in declaration order. -/
def declNames : List FnArg → List Ident
  | [] => []
  | a :: ps => argNames a ++ declNames ps

theorem patNames_removeMut (p : Pat) :
    patNames (removeMutPat p) = patNames p := by
  induction p with
  | patIdent m i => rfl
  | atPat m i sub ih => rfl
  | wild => rfl
  | pair a b iha ihb => simp [removeMutPat, patNames, iha, ihb]

/-- Stripping mutability does not change what a pattern binds. -/
theorem bindPat_removeMut (p : Pat) (v : Value) :
    bindPat (removeMutPat p) v = bindPat p v := by
  induction p generalizing v with
  | patIdent m i => rfl
  | atPat m i sub ih => rfl
  | wild => rfl
  | pair a b iha ihb =>
    cases v with
    | base n => rfl
    | vpair x y => simp [removeMutPat, bindPat, iha, ihb]

/-- A successful pattern match binds exactly the pattern's identifiers. -/
theorem bindPat_keys (p : Pat) (v : Value) (b : Env)
    (h : bindPat p v = some b) : b.map Prod.fst = patNames p := by
  induction p generalizing v b with
  | patIdent m i =>
    simp [bindPat] at h
    subst h; rfl
  | atPat m i sub ih =>
    simp [bindPat] at h
    obtain ⟨b', hb', rfl⟩ := h
    simp [patNames, ih _ _ hb']
  | wild =>
    simp [bindPat] at h
    subst h; rfl
  | pair a c iha ihc =>
    cases v with
    | base n => simp [bindPat] at h
    | vpair x y =>
      simp [bindPat, Option.bind_eq_some] at h
      obtain ⟨ba, hba, bc, hbc, rfl⟩ := h
      simp [patNames, iha _ _ hba, ihc _ _ hbc]

/-- A successful parameter binding binds exactly the declared names. -/
theorem bindParams_keys (ps : List FnArg) (A : List Value) (e : Env)
    (h : bindParams ps A = some e) : e.map Prod.fst = declNames ps := by
  induction ps generalizing A e with
  | nil =>
    cases A with
    | nil => simp [bindParams] at h; subst h; rfl
    | cons v vs => simp [bindParams] at h
  | cons a ps ih =>
    cases A with
    | nil => cases a <;> simp [bindParams] at h
    | cons v vs =>
      cases a with
      | receiver r m =>
        simp [bindParams] at h
        obtain ⟨e', he', rfl⟩ := h
        simp [declNames, argNames, ih _ _ he']
      | typed attrs pat ty =>
        simp [bindParams, Option.bind_eq_some] at h
        obtain ⟨b, hb, e', he', rfl⟩ := h
        simp [declNames, argNames, bindPat_keys _ _ _ hb, ih _ _ he']

/-- A successful parameter binding consumes exactly one value per
parameter. -/
theorem bindParams_length (ps : List FnArg) (A : List Value) (e : Env)
    (h : bindParams ps A = some e) : A.length = ps.length := by
  induction ps generalizing A e with
  | nil =>
    cases A with
    | nil => rfl
    | cons v vs => simp [bindParams] at h
  | cons a ps ih =>
    cases A with
    | nil => cases a <;> simp [bindParams] at h
    | cons v vs =>
      cases a with
      | receiver r m =>
        simp [bindParams] at h
        obtain ⟨e', he', rfl⟩ := h
        simp [ih _ _ he']
      | typed attrs pat ty =>
        simp [bindParams, Option.bind_eq_some] at h
        obtain ⟨b, hb, e', he', rfl⟩ := h
        simp [ih _ _ he']

/-- Lookup skips a block of bindings holding none of the wanted name. -/
theorem lookupEnv_append_right (l₁ l₂ : Env) (i : Ident)
    (h : i ∉ l₁.map Prod.fst) :
    lookupEnv (l₁ ++ l₂) i = lookupEnv l₂ i := by
  induction l₁ with
  | nil => rfl
  | cons kv rest ih =>
    obtain ⟨k, v⟩ := kv
    rw [List.map_cons, List.mem_cons] at h
    push_neg at h
    simp [lookupEnv, Ne.symm h.1, ih h.2]

/-- Looking up a list of names only depends on the answers for those
names. -/
theorem lookupArgs_congr (e₁ e₂ : Env) (args : List Ident)
    (h : ∀ a ∈ args, lookupEnv e₁ a = lookupEnv e₂ a) :
    lookupArgs e₁ args = lookupArgs e₂ args := by
  induction args with
  | nil => rfl
  | cons a rest ih =>
    simp only [lookupArgs]
    rw [h a (by simp), ih fun x hx => h x (by simp [hx])]

/-! ## The forwarded values -/

/-- The values the outer body forwards: every argument except those of
receiver/`self` parameters, in original order. -/
def fwdVals : List FnArg → List Value → List Value
  | [], _ => []
  | _ :: _, [] => []
  | it :: ps, v :: vs =>
    if isSelfParam it then fwdVals ps vs else v :: fwdVals ps vs

/-- When no parameter is a receiver or `self`, the forwarded values are
the whole argument list. -/
theorem fwdVals_of_noSelf (ps : List FnArg) (A : List Value)
    (hn : ∀ a ∈ ps, isSelfParam a = false) (hl : A.length = ps.length) :
    fwdVals ps A = A := by
  induction ps generalizing A with
  | nil => cases A with
    | nil => rfl
    | cons v vs => simp at hl
  | cons it ps ih =>
    cases A with
    | nil => simp at hl
    | cons v vs =>
      have h1 : isSelfParam it = false := hn it (by simp)
      simp only [fwdVals, h1, if_neg (by simp [h1] : ¬ isSelfParam it = true)]
      have := ih vs (fun a ha => hn a (by simp [ha])) (by simpa using hl)
      simp [this]

/-- The top-level identifier survives `RemoveMut`. -/
theorem patTopIdent_removeMut (p : Pat) :
    patTopIdent (removeMutPat p) = patTopIdent p := by
  cases p <;> rfl

/-- A pattern with top-level identifier `i` binds `i` to the whole value
first. -/
theorem bindPat_head (p : Pat) (i : Ident) (v : Value) (b : Env)
    (hi : patTopIdent p = some i) (hb : bindPat p v = some b) :
    ∃ b', b = (i, v) :: b' := by
  cases p with
  | patIdent m j =>
    simp [patTopIdent] at hi
    simp [bindPat] at hb
    exact ⟨[], by simp [← hb, hi]⟩
  | atPat m j sub =>
    simp [patTopIdent] at hi
    simp [bindPat] at hb
    obtain ⟨b', _, rfl⟩ := hb
    exact ⟨b', by simp [hi]⟩
  | wild => simp [patTopIdent] at hi
  | pair a c => simp [patTopIdent] at hi

/-- Every forwarding argument is a name the outer parameter list binds. -/
theorem subArgsFrom_subset_declNames (ps : List FnArg) (n : Nat) :
    ∀ a ∈ subArgsFrom n ps, a ∈ declNames (mainParams n ps) := by
  induction ps generalizing n with
  | nil => simp [subArgsFrom, mainParams, declNames]
  | cons it ps ih =>
    intro a ha
    cases it with
    | receiver r m =>
      simp only [subArgsFrom] at ha
      simp only [mainParams, declNames, removeMutArg, argNames]
      exact List.mem_append_right _ (ih n a ha)
    | typed attrs pat ty =>
      cases hp : patTopIdent pat with
      | some i =>
        by_cases hi : i = "self"
        · simp only [subArgsFrom, hp, hi, if_pos rfl] at ha
          simp only [mainParams, hp, hi, if_pos rfl, declNames]
          exact List.mem_append_right _ (ih n a ha)
        · simp only [subArgsFrom, hp, if_neg hi, List.mem_cons] at ha
          simp only [mainParams, hp, if_neg hi, declNames, argNames,
            removeMutArg, patNames_removeMut]
          rcases ha with rfl | ha
          · apply List.mem_append_left
            cases pat with
            | patIdent m j => simp [patTopIdent] at hp; simp [patNames, hp]
            | atPat m j sub => simp [patTopIdent] at hp; simp [patNames, hp]
            | wild => simp [patTopIdent] at hp
            | pair x y => simp [patTopIdent] at hp
          · exact List.mem_append_right _ (ih (n + 1) a ha)
      | none =>
        simp only [subArgsFrom, hp, List.mem_cons] at ha
        simp only [mainParams, hp, declNames, argNames, patNames]
        rcases ha with rfl | ha
        · simp
        · exact List.mem_append_right _ (ih (n + 1) a ha)

/-- `bindParams` on a receiver-headed list, unfolded. -/
theorem bindParams_receiver_cons (r m : Bool) (ps : List FnArg) (v : Value)
    (vs : List Value) :
    bindParams (.receiver r m :: ps) (v :: vs)
      = (bindParams ps vs).map fun e => ("self", v) :: e := rfl

/-- `bindParams` on a typed-argument-headed list, unfolded. -/
theorem bindParams_typed_cons (a : List Ident) (p : Pat) (t : Ty)
    (ps : List FnArg) (v : Value) (vs : List Value) :
    bindParams (.typed a p t :: ps) (v :: vs)
      = (bindPat p v).bind
          fun b => (bindParams ps vs).bind fun e => some (b ++ e) := rfl

/-- Reading the forwarding arguments back from the outer environment
recovers exactly the forwarded values, provided the outer parameter list
binds no name twice. -/
theorem lookupArgs_mainParams (ps : List FnArg) (A : List Value) (n : Nat)
    (e : Env) (h : bindParams (mainParams n ps) A = some e)
    (hnd : (e.map Prod.fst).Nodup) :
    lookupArgs e (subArgsFrom n ps) = some (fwdVals ps A) := by
  induction ps generalizing A n e with
  | nil =>
    cases A with
    | nil =>
      simp only [mainParams, bindParams, Option.some.injEq] at h
      subst h
      simp [subArgsFrom, fwdVals, lookupArgs]
    | cons v vs => simp [mainParams, bindParams] at h
  | cons it ps ih =>
    cases A with
    | nil =>
      exfalso
      cases it with
      | receiver r m => simp [mainParams, removeMutArg, bindParams] at h
      | typed attrs pat ty =>
        cases hp : patTopIdent pat with
        | some i =>
          by_cases hi : i = "self" <;>
            simp [mainParams, hp, hi, removeMutArg, bindParams] at h
        | none => simp [mainParams, hp, bindParams] at h
    | cons v vs =>
      cases it with
      | receiver r m =>
        simp only [mainParams, removeMutArg, bindParams_receiver_cons] at h
        cases hrec : bindParams (mainParams n ps) vs with
        | none => rw [hrec] at h; simp at h
        | some e' =>
          rw [hrec] at h
          have he : ("self", v) :: e' = e := by
            injection h with h
          subst he
          simp only [List.map_cons, List.nodup_cons] at hnd
          have hkeys : e'.map Prod.fst = declNames (mainParams n ps) :=
            bindParams_keys _ _ _ hrec
          have hcongr : lookupArgs (("self", v) :: e') (subArgsFrom n ps)
              = lookupArgs e' (subArgsFrom n ps) := by
            apply lookupArgs_congr
            intro a ha
            have hmem : a ∈ e'.map Prod.fst := by
              rw [hkeys]; exact subArgsFrom_subset_declNames ps n a ha
            have hne : ("self" : Ident) ≠ a := fun hsa => hnd.1 (hsa ▸ hmem)
            simp [lookupEnv, hne]
          simp only [subArgsFrom, fwdVals, isSelfParam, if_true]
          rw [hcongr]
          exact ih vs n e' hrec hnd.2
      | typed attrs pat ty =>
        cases hp : patTopIdent pat with
        | some i =>
          simp only [mainParams, hp, removeMutArg] at h
          by_cases hi : i = "self"
          · rw [if_pos hi, bindParams_typed_cons] at h
            cases hb : bindPat (removeMutPat pat) v with
            | none => rw [hb] at h; simp at h
            | some b =>
              cases hrec : bindParams (mainParams n ps) vs with
              | none => rw [hb, hrec] at h; simp at h
              | some e' =>
                rw [hb, hrec] at h
                have he : b ++ e' = e := by
                  simpa using h
                subst he
                rw [List.map_append, List.nodup_append] at hnd
                have hek : e'.map Prod.fst = declNames (mainParams n ps) :=
                  bindParams_keys _ _ _ hrec
                have hcongr : lookupArgs (b ++ e') (subArgsFrom n ps)
                    = lookupArgs e' (subArgsFrom n ps) := by
                  apply lookupArgs_congr
                  intro a ha
                  have hmem : a ∈ e'.map Prod.fst := by
                    rw [hek]; exact subArgsFrom_subset_declNames ps n a ha
                  exact lookupEnv_append_right _ _ _
                    fun hab => hnd.2.2 hab hmem
                have hsp : isSelfParam (FnArg.typed attrs pat ty) = true := by
                  simp [isSelfParam, hp, hi]
                simp only [subArgsFrom, hp, if_pos hi, fwdVals, hsp, if_true]
                rw [hcongr]
                exact ih vs n e' hrec hnd.2.1
          · rw [if_neg hi, bindParams_typed_cons] at h
            cases hb : bindPat (removeMutPat pat) v with
            | none => rw [hb] at h; simp at h
            | some b =>
              cases hrec : bindParams (mainParams (n + 1) ps) vs with
              | none => rw [hb, hrec] at h; simp at h
              | some e' =>
                rw [hb, hrec] at h
                have he : b ++ e' = e := by
                  simpa using h
                subst he
                rw [List.map_append, List.nodup_append] at hnd
                have hek : e'.map Prod.fst
                    = declNames (mainParams (n + 1) ps) :=
                  bindParams_keys _ _ _ hrec
                obtain ⟨b', rfl⟩ := bindPat_head (removeMutPat pat) i v b
                  (by rw [patTopIdent_removeMut, hp]) hb
                have hcongr : lookupArgs (((i, v) :: b') ++ e')
                      (subArgsFrom (n + 1) ps)
                    = lookupArgs e' (subArgsFrom (n + 1) ps) := by
                  apply lookupArgs_congr
                  intro a ha
                  have hmem : a ∈ e'.map Prod.fst := by
                    rw [hek]
                    exact subArgsFrom_subset_declNames ps (n + 1) a ha
                  exact lookupEnv_append_right _ _ _
                    fun hab => hnd.2.2 hab hmem
                have hsp : isSelfParam (FnArg.typed attrs pat ty) = false := by
                  simp [isSelfParam, hp, hi]
                have hl : lookupEnv (((i, v) :: b') ++ e') i = some v := by
                  simp [lookupEnv]
                simp only [subArgsFrom, hp, if_neg hi, fwdVals, hsp,
                  Bool.false_eq_true, if_false, lookupArgs]
                rw [hl, hcongr, ih vs (n + 1) e' hrec hnd.2.1]
                rfl
        | none =>
          simp only [mainParams, hp] at h
          rw [bindParams_typed_cons] at h
          have hb : bindPat (.patIdent false (synthName n)) v
              = some [(synthName n, v)] := rfl
          rw [hb] at h
          cases hrec : bindParams (mainParams (n + 1) ps) vs with
          | none => rw [hrec] at h; simp at h
          | some e' =>
            rw [hrec] at h
            have he : [(synthName n, v)] ++ e' = e := by
              simpa using h
            subst he
            rw [List.map_append, List.nodup_append] at hnd
            have hek : e'.map Prod.fst = declNames (mainParams (n + 1) ps) :=
              bindParams_keys _ _ _ hrec
            have hcongr : lookupArgs ([(synthName n, v)] ++ e')
                  (subArgsFrom (n + 1) ps)
                = lookupArgs e' (subArgsFrom (n + 1) ps) := by
              apply lookupArgs_congr
              intro a ha
              have hmem : a ∈ e'.map Prod.fst := by
                rw [hek]; exact subArgsFrom_subset_declNames ps (n + 1) a ha
              exact lookupEnv_append_right _ _ _
                fun hab => hnd.2.2 hab hmem
            have hsp : isSelfParam (FnArg.typed attrs pat ty) = false := by
              simp [isSelfParam, hp]
            have hl : lookupEnv ([(synthName n, v)] ++ e') (synthName n)
                = some v := by
              simp [lookupEnv]
            simp only [subArgsFrom, hp, fwdVals, hsp, Bool.false_eq_true,
              if_false, lookupArgs]
            rw [hl, hcongr, ih vs (n + 1) e' hrec hnd.2.1]
            rfl

/-- When the first parameter is a receiver or a typed `self`, the outer
environment's `self` holds the first argument. -/
theorem lookupEnv_self_head (it : FnArg) (ps : List FnArg) (v : Value)
    (vs : List Value) (n : Nat) (e : Env)
    (hs : isSelfParam it = true)
    (h : bindParams (mainParams n (it :: ps)) (v :: vs) = some e) :
    lookupEnv e "self" = some v := by
  cases it with
  | receiver r m =>
    simp only [mainParams, removeMutArg, bindParams_receiver_cons] at h
    cases hrec : bindParams (mainParams n ps) vs with
    | none => rw [hrec] at h; simp at h
    | some e' =>
      rw [hrec] at h
      have he : ("self", v) :: e' = e := by injection h with h
      subst he
      simp [lookupEnv]
  | typed attrs pat ty =>
    have hp : patTopIdent pat = some "self" := by
      simpa [isSelfParam] using hs
    simp only [mainParams, hp, removeMutArg, if_true] at h
    rw [bindParams_typed_cons] at h
    cases hb : bindPat (removeMutPat pat) v with
    | none => rw [hb] at h; simp at h
    | some b =>
      cases hrec : bindParams (mainParams n ps) vs with
      | none => rw [hb, hrec] at h; simp at h
      | some e' =>
        rw [hb, hrec] at h
        have he : b ++ e' = e := by simpa using h
        subst he
        obtain ⟨b', rfl⟩ := bindPat_head (removeMutPat pat) "self" v b
          (by rw [patTopIdent_removeMut, hp]) hb
        simp [lookupEnv]

/-- If the original parameter list binds an argument list successfully,
so does the outer parameter list. -/
theorem bindParams_mainParams_some (ps : List FnArg) (A : List Value)
    (n : Nat) (e0 : Env) (h : bindParams ps A = some e0) :
    ∃ e, bindParams (mainParams n ps) A = some e := by
  induction ps generalizing A n e0 with
  | nil =>
    cases A with
    | nil => exact ⟨[], rfl⟩
    | cons v vs => simp [bindParams] at h
  | cons it ps ih =>
    cases A with
    | nil => cases it <;> simp [bindParams] at h
    | cons v vs =>
      cases it with
      | receiver r m =>
        rw [bindParams_receiver_cons] at h
        cases hrec : bindParams ps vs with
        | none => rw [hrec] at h; simp at h
        | some e1 =>
          obtain ⟨e2, he2⟩ := ih vs n e1 hrec
          refine ⟨("self", v) :: e2, ?_⟩
          simp only [mainParams, removeMutArg, bindParams_receiver_cons]
          rw [he2]
          rfl
      | typed attrs pat ty =>
        rw [bindParams_typed_cons] at h
        cases hb : bindPat pat v with
        | none => rw [hb] at h; simp at h
        | some b =>
          cases hrec : bindParams ps vs with
          | none => rw [hb, hrec] at h; simp at h
          | some e1 =>
            cases hp : patTopIdent pat with
            | some i =>
              by_cases hi : i = "self"
              · obtain ⟨e2, he2⟩ := ih vs n e1 hrec
                refine ⟨b ++ e2, ?_⟩
                simp only [mainParams, hp, removeMutArg]
                rw [if_pos hi, bindParams_typed_cons, bindPat_removeMut,
                  hb, he2]
                rfl
              · obtain ⟨e2, he2⟩ := ih vs (n + 1) e1 hrec
                refine ⟨b ++ e2, ?_⟩
                simp only [mainParams, hp, removeMutArg]
                rw [if_neg hi, bindParams_typed_cons, bindPat_removeMut,
                  hb, he2]
                rfl
            | none =>
              obtain ⟨e2, he2⟩ := ih vs (n + 1) e1 hrec
              refine ⟨[(synthName n, v)] ++ e2, ?_⟩
              simp only [mainParams, hp]
              rw [bindParams_typed_cons]
              have hb2 : bindPat (.patIdent false (synthName n)) v
                  = some [(synthName n, v)] := rfl
              rw [hb2, he2]
              rfl

/-- The outer parameter list has the arity of the original one. -/
theorem mainParams_length (ps : List FnArg) (n : Nat) :
    (mainParams n ps).length = ps.length := by
  induction ps generalizing n with
  | nil => rfl
  | cons it ps ih =>
    cases it with
    | receiver r m => simp [mainParams, ih]
    | typed attrs pat ty =>
      cases hp : patTopIdent pat with
      | some i => simp [mainParams, hp, ih]
      | none => simp [mainParams, hp, ih]

/-- The inner parameter list is the original one (`sub_param` pushes
`it.clone()` in every branch). -/
theorem splitInputs_sub_param (inputs : List FnArg) :
    (splitInputs inputs).sub_param = inputs := by
  rw [splitInputs_eq]

/-- The inner declaration `unsafe_fn_impl` emits for an input with a
body (the `fun` quote block). -/
def innerDeclOf (f : FnOrMethod) (block : Block) : Decl :=
  { attrs := ["doc(hide)", "inline"], vis := .inherited
    constness := f.sig.constness, asyncness := f.sig.asyncness
    unsafety := false, abi := none, ident := innerNameOf f.sig.ident
    generics := f.sig.generics, inputs := f.sig.inputs
    variadic := f.sig.variadic, output := f.sig.output
    body := .origBlock block }

/-- Which dispatch the outer body uses: `self.` when a receiver or typed
`self` was seen, else `Self::` when the `Self` scan of signature and body
finds the token, else a plain call. -/
def dispatchOf (s : Signature) (block : Block) : Dispatch :=
  if s.inputs.any isSelfParam then .selfDot
  else if sigHasSelf s || tokHasSelf block then .selfQual
  else .plain

/-- The outer declaration `unsafe_fn_impl` emits for an input with a
body (the `fdecl` quote block plus the forwarding call). -/
def outerDeclOf (f : FnOrMethod) (block : Block) : Decl :=
  { attrs := f.attrs, vis := f.vis
    constness := f.sig.constness, asyncness := f.sig.asyncness
    unsafety := true, abi := f.sig.abi, ident := f.sig.ident
    generics := f.sig.generics, inputs := mainParams 0 f.sig.inputs
    variadic := f.sig.variadic, output := f.sig.output
    body := .fwdCall (dispatchOf f.sig block) (innerNameOf f.sig.ident)
      (typeParamIdents f.sig.generics) (subArgsFrom 0 f.sig.inputs) }

/-- On an input with a body whose marker matches the requested kind,
`unsafe_fn_impl` emits exactly the split pair. -/
theorem unsafe_fn_impl_eq_split (f : FnOrMethod) (k : Kind) (block : Block)
    (hbl : f.block = some block)
    (hmk : k = Kind.unsafeFn ∧ f.sig.unsafety = false
      ∨ k = Kind.safeBody ∧ f.sig.unsafety = true) :
    unsafe_fn_impl f k
      = .ok (.split (innerDeclOf f block) (outerDeclOf f block)) := by
  rcases hmk with ⟨rfl, hu⟩ | ⟨rfl, hu⟩ <;>
    simp [unsafe_fn_impl, hu, hbl, splitInputs_eq, innerDeclOf, outerDeclOf,
      dispatchOf]

/-- Whenever `unsafe_fn_impl` succeeds on an input with a body, the
output is the split pair. -/
theorem unsafe_fn_impl_ok_shape (f : FnOrMethod) (k : Kind) (out : Output)
    (block : Block) (hok : unsafe_fn_impl f k = .ok out)
    (hbl : f.block = some block) :
    out = .split (innerDeclOf f block) (outerDeclOf f block) := by
  have hmk : k = Kind.unsafeFn ∧ f.sig.unsafety = false
      ∨ k = Kind.safeBody ∧ f.sig.unsafety = true := by
    cases k <;> cases hu : f.sig.unsafety <;>
      simp [unsafe_fn_impl, hu] at hok <;> simp [hu]
  rw [unsafe_fn_impl_eq_split f k block hbl hmk] at hok
  exact (Except.ok.injEq _ _).mp hok.symm

/-- Semantic core: invoking the emitted pair equals invoking the
original body, for any meaning of the body and any argument list. -/
theorem invokeOutput_split_eq (f : FnOrMethod) (block : Block)
    (eval : Block → Env → Option Value) (A : List Value)
    (hbl : f.block = some block)
    (hnd : (declNames (mainParams 0 f.sig.inputs)).Nodup)
    (hself : ∀ a ∈ f.sig.inputs.tail, isSelfParam a = false) :
    invokeOutput (.split (innerDeclOf f block) (outerDeclOf f block)) eval A
      = invokeOriginal f eval A := by
  cases houter : bindParams (mainParams 0 f.sig.inputs) A with
  | none =>
    have horig : bindParams f.sig.inputs A = none := by
      cases horig : bindParams f.sig.inputs A with
      | none => rfl
      | some e0 =>
        obtain ⟨e, he⟩ := bindParams_mainParams_some _ _ 0 _ horig
        rw [houter] at he
        exact absurd he (by simp)
    simp [invokeOutput, invokeOriginal, innerDeclOf, outerDeclOf, hbl,
      houter, horig]
  | some e =>
    have hnd' : (e.map Prod.fst).Nodup := by
      rw [bindParams_keys _ _ _ houter]; exact hnd
    have hargs := lookupArgs_mainParams _ A 0 e houter hnd'
    have hlen : A.length = f.sig.inputs.length := by
      have h1 := bindParams_length _ _ _ houter
      rwa [mainParams_length] at h1
    cases hws : f.sig.inputs.any isSelfParam with
    | false =>
      have hnone : ∀ a ∈ f.sig.inputs, isSelfParam a = false := by
        intro a ha
        by_contra hc
        have : f.sig.inputs.any isSelfParam = true :=
          List.any_eq_true.mpr ⟨a, ha, by
            cases hx : isSelfParam a
            · exact absurd hx hc
            · rfl⟩
        rw [hws] at this
        cases this
      have hfwd : fwdVals f.sig.inputs A = A :=
        fwdVals_of_noSelf _ _ hnone hlen
      cases hss : (sigHasSelf f.sig || tokHasSelf block) with
      | false =>
        have hdisp : dispatchOf f.sig block = Dispatch.plain := by
          simp [dispatchOf, hws, hss]
        simp [invokeOutput, invokeOriginal, innerDeclOf, outerDeclOf,
          hdisp, hbl, houter, hargs, hfwd]
      | true =>
        have hdisp : dispatchOf f.sig block = Dispatch.selfQual := by
          simp [dispatchOf, hws, hss]
        simp [invokeOutput, invokeOriginal, innerDeclOf, outerDeclOf,
          hdisp, hbl, houter, hargs, hfwd]
    | true =>
      cases hin : f.sig.inputs with
      | nil => rw [hin] at hws; simp at hws
      | cons p0 rest =>
        have hp0 : isSelfParam p0 = true := by
          rw [hin] at hws
          rcases List.any_eq_true.mp hws with ⟨a, ha, hsa⟩
          rcases List.mem_cons.mp ha with rfl | hmem
          · exact hsa
          · have := hself a (by rw [hin]; exact hmem)
            rw [this] at hsa
            cases hsa
        cases A with
        | nil => rw [hin] at hlen; simp at hlen
        | cons v vs =>
          have hsd : lookupEnv e "self" = some v := by
            apply lookupEnv_self_head p0 rest v vs 0 e hp0
            rw [← hin]
            exact houter
          have hrest : ∀ a ∈ rest, isSelfParam a = false := by
            intro a ha
            exact hself a (by rw [hin]; exact ha)
          have hvslen : (vs : List Value).length = rest.length := by
            rw [hin] at hlen
            simpa using hlen
          have hfwd : fwdVals f.sig.inputs (v :: vs) = vs := by
            rw [hin]
            simp only [fwdVals, hp0, if_true]
            exact fwdVals_of_noSelf rest vs hrest hvslen
          have hdisp : dispatchOf f.sig block = Dispatch.selfDot := by
            simp [dispatchOf, hws]
          simp [invokeOutput, invokeOriginal, innerDeclOf, outerDeclOf,
            hdisp, hbl, houter, hargs, hfwd, hsd]

/-! ## Claim theorems -/

/-- C1: for every valid declaration with a body on which a transform
(`unsafe_fn` or `safe_body` kind) succeeds, invoking the emitted pair at
its outer declaration with any argument list, under any meaning of the
body, yields the same result as invoking the original body directly;
and the call-site interface is unchanged: the outer declaration keeps the
original name and arity, the inner declaration keeps the original
parameter list, and the forwarding call is instantiated at exactly the
declaration's type parameters.  Validity of the declaration: the outer
parameter list binds no identifier twice (no duplicate bindings, and no
user binding equal to a reserved synthetic name), and only the first
parameter may be a receiver or a typed `self`. -/
theorem transformed_pair_preserves_invocation (f : FnOrMethod) (k : Kind)
    (out : Output) (block : Block)
    (eval : Block → Env → Option Value) (A : List Value)
    (hok : unsafe_fn_impl f k = .ok out)
    (hbl : f.block = some block)
    (hnd : (declNames (mainParams 0 f.sig.inputs)).Nodup)
    (hself : ∀ a ∈ f.sig.inputs.tail, isSelfParam a = false) :
    invokeOutput out eval A = invokeOriginal f eval A
      ∧ out = .split (innerDeclOf f block) (outerDeclOf f block)
      ∧ (outerDeclOf f block).ident = f.sig.ident
      ∧ (outerDeclOf f block).inputs.length = f.sig.inputs.length
      ∧ (innerDeclOf f block).inputs = f.sig.inputs
      ∧ (outerDeclOf f block).body
          = .fwdCall (dispatchOf f.sig block) (innerNameOf f.sig.ident)
              (typeParamIdents f.sig.generics)
              (subArgsFrom 0 f.sig.inputs) := by
  have hshape := unsafe_fn_impl_ok_shape f k out block hok hbl
  subst hshape
  exact ⟨invokeOutput_split_eq f block eval A hbl hnd hself, rfl, rfl,
    mainParams_length _ _, rfl, rfl⟩

/-- A concrete sample declaration for witnesses: a generic function with
a simple parameter and a destructuring (pair) parameter. -/
def exBlock : Block := .ident "body"

def exSig : Signature :=
  { constness := false, asyncness := false, unsafety := false, abi := none
    ident := "hello"
    generics := { params := [.typeParam "T"], whereClause := none }
    inputs := [.typed [] (.patIdent false "x") (.ident "u32"),
               .typed [] (.pair (.patIdent false "a") (.patIdent true "b"))
                 (.ident "Pair")]
    variadic := false, output := .nil }

def exDecl : FnOrMethod :=
  { attrs := [], vis := .publicVis, sig := exSig
    block := some exBlock, semi := false }

def exEval : Block → Env → Option Value := fun _ env => lookupEnv env "x"

def exArgs : List Value := [.base 1, .vpair (.base 2) (.base 3)]

def exOut : Output := .split (innerDeclOf exDecl exBlock) (outerDeclOf exDecl exBlock)

/-- Witness for the C1 theorem at `exDecl`, with its hypotheses checked
concretely; the invocation equality is obtained by applying the theorem,
and the common value is computed. -/
theorem transformed_pair_preserves_invocation_witness :
    (unsafe_fn_impl exDecl Kind.unsafeFn = .ok exOut
        ∧ exDecl.block = some exBlock
        ∧ (declNames (mainParams 0 exDecl.sig.inputs)).Nodup
        ∧ ∀ a ∈ exDecl.sig.inputs.tail, isSelfParam a = false)
      ∧ invokeOutput exOut exEval exArgs = invokeOriginal exDecl exEval exArgs
      ∧ invokeOriginal exDecl exEval exArgs = some (.base 1) :=
  ⟨⟨rfl, rfl, by decide, by decide⟩,
    (transformed_pair_preserves_invocation exDecl Kind.unsafeFn exOut exBlock
      exEval exArgs rfl rfl (by decide) (by decide)).1,
    by decide⟩

/-- The marked, bodyless declaration `unsafe_fn_impl` re-emits for a
trait method without a default body. -/
def stubOuterOf (f : FnOrMethod) : Decl :=
  { attrs := f.attrs, vis := f.vis, constness := f.sig.constness
    asyncness := f.sig.asyncness, unsafety := true, abi := f.sig.abi
    ident := f.sig.ident, generics := f.sig.generics, inputs := f.sig.inputs
    variadic := f.sig.variadic, output := f.sig.output, body := .noBody }

/-- The never-called placeholder emitted next to a bodyless trait
method. -/
def stubPlaceholderOf (f : FnOrMethod) : Decl :=
  { attrs := ["doc(hide)", "inline"], vis := .inherited
    constness := f.sig.constness, asyncness := f.sig.asyncness
    unsafety := false, abi := none, ident := innerNameOf f.sig.ident
    generics := addSelfSized f.sig.generics, inputs := f.sig.inputs
    variadic := f.sig.variadic, output := f.sig.output, body := .panicCall }

/-- On a bodyless input with matching marker, `unsafe_fn_impl` emits the
marked signature plus the placeholder. -/
theorem unsafe_fn_impl_eq_stub (f : FnOrMethod) (k : Kind)
    (hbl : f.block = none)
    (hmk : k = Kind.unsafeFn ∧ f.sig.unsafety = false
      ∨ k = Kind.safeBody ∧ f.sig.unsafety = true) :
    unsafe_fn_impl f k
      = .ok (.traitStub (stubOuterOf f) (stubPlaceholderOf f)) := by
  rcases hmk with ⟨rfl, hu⟩ | ⟨rfl, hu⟩ <;>
    simp [unsafe_fn_impl, hu, hbl, stubOuterOf, stubPlaceholderOf]

/-- Whenever `unsafe_fn_impl` succeeds on a bodyless input, the output is
the stub pair. -/
theorem unsafe_fn_impl_ok_stub_shape (f : FnOrMethod) (k : Kind)
    (out : Output) (hok : unsafe_fn_impl f k = .ok out)
    (hbl : f.block = none) :
    out = .traitStub (stubOuterOf f) (stubPlaceholderOf f) := by
  have hmk : k = Kind.unsafeFn ∧ f.sig.unsafety = false
      ∨ k = Kind.safeBody ∧ f.sig.unsafety = true := by
    cases k <;> cases hu : f.sig.unsafety <;>
      simp [unsafe_fn_impl, hu] at hok <;> simp [hu]
  rw [unsafe_fn_impl_eq_stub f k hbl hmk] at hok
  exact (Except.ok.injEq _ _).mp hok.symm

/-- Marker-validation outcome of the core transform, per kind. -/
theorem unsafe_fn_impl_error_iff (f : FnOrMethod) :
    ((∃ e, unsafe_fn_impl f .unsafeFn = .error e) ↔ f.sig.unsafety = true)
      ∧ (∀ e, unsafe_fn_impl f .unsafeFn = .error e → e = .alreadyMarked)
      ∧ ((∃ e, unsafe_fn_impl f .safeBody = .error e)
          ↔ f.sig.unsafety = false)
      ∧ (∀ e, unsafe_fn_impl f .safeBody = .error e → e = .notMarked) := by
  cases hu : f.sig.unsafety <;> cases hbl : f.block <;>
    simp [unsafe_fn_impl, hu, hbl]

/-- C3: on every function or method input, the add-restriction transform
fails exactly when the restriction marker is already present, and then
with the AlreadyMarked diagnostic; the remove-blanket-acknowledgment
transform fails exactly when the marker is absent, and then with the
NotMarked diagnostic.  A failing run returns only the diagnostic (the
error constructor carries no declarations), so no partial output is ever
emitted. -/
theorem marker_validation_errors (f : FnOrMethod) (m : TraitItemMethod) :
    ((∃ e, unsafe_fn (.itemFn f) = .error e) ↔ f.sig.unsafety = true)
      ∧ (∀ e, unsafe_fn (.itemFn f) = .error e → e = .alreadyMarked)
      ∧ ((∃ e, safe_body (.itemFn f) = .error e) ↔ f.sig.unsafety = false)
      ∧ (∀ e, safe_body (.itemFn f) = .error e → e = .notMarked)
      ∧ ((∃ e, unsafe_fn (.traitMethod m) = .error e)
          ↔ m.sig.unsafety = true)
      ∧ (∀ e, unsafe_fn (.traitMethod m) = .error e → e = .alreadyMarked)
      ∧ ((∃ e, safe_body (.traitMethod m) = .error e)
          ↔ m.sig.unsafety = false)
      ∧ (∀ e, safe_body (.traitMethod m) = .error e → e = .notMarked) := by
  obtain ⟨h1, h2, h3, h4⟩ := unsafe_fn_impl_error_iff f
  obtain ⟨h5, h6, h7, h8⟩ := unsafe_fn_impl_error_iff (ofTraitItemMethod m)
  exact ⟨h1, h2, h3, h4, h5, h6, h7, h8⟩

/-- Re-reading an emitted declaration as macro input, as Rust's parser
would: a bodyless declaration parses as a trait method, a bodied one as a
function item (the bodies are re-read as token trees). -/
def declSig (d : Decl) : Signature :=
  { constness := d.constness, asyncness := d.asyncness
    unsafety := d.unsafety, abi := d.abi, ident := d.ident
    generics := d.generics, inputs := d.inputs, variadic := d.variadic
    output := d.output }

/-- The forwarding call of an outer body, re-read as tokens. -/
def fwdCallToks (callee : Ident) (args : List Ident) : Tok :=
  (args.map Tok.ident).foldl Tok.seq (Tok.ident callee)

def declAsInput (d : Decl) : MacroInput :=
  match d.body with
  | .noBody => .traitMethod
      { attrs := d.attrs, sig := declSig d, defaultBlock := none
        semi := true }
  | .origBlock b => .itemFn
      { attrs := d.attrs, vis := d.vis, sig := declSig d, block := some b
        semi := false }
  | .panicCall => .itemFn
      { attrs := d.attrs, vis := d.vis, sig := declSig d
        block := some (Tok.ident "panicBody"), semi := false }
  | .fwdCall _ callee _ args => .itemFn
      { attrs := d.attrs, vis := d.vis, sig := declSig d
        block := some (fwdCallToks callee args), semi := false }

/-- C9: whenever the add-restriction transform succeeds on a function or
method input, applying it a second time to the emitted outer declaration
always fails with the AlreadyMarked diagnostic. -/
theorem add_restriction_twice_rejected (inp : MacroInput) (out : Output)
    (outer rest : Decl)
    (hin : (∃ f, inp = MacroInput.itemFn f)
      ∨ ∃ m, inp = MacroInput.traitMethod m)
    (hok : unsafe_fn inp = .ok out)
    (hsh : out = .split rest outer ∨ out = .traitStub outer rest) :
    unsafe_fn (declAsInput outer) = .error .alreadyMarked := by
  have hcore : ∀ f0 : FnOrMethod, unsafe_fn_impl f0 .unsafeFn = .ok out →
      unsafe_fn (declAsInput outer) = .error .alreadyMarked := by
    intro f0 hok0
    cases hbl : f0.block with
    | some block =>
      have hsh0 := unsafe_fn_impl_ok_shape f0 .unsafeFn out block hok0 hbl
      subst hsh0
      rcases hsh with hsp | hst
      · simp only [Output.split.injEq] at hsp
        rw [← hsp.2]
        simp [declAsInput, outerDeclOf, declSig, unsafe_fn, unsafe_fn_impl]
      · simp at hst
    | none =>
      have hsh0 := unsafe_fn_impl_ok_stub_shape f0 .unsafeFn out hok0 hbl
      subst hsh0
      rcases hsh with hsp | hst
      · simp at hsp
      · simp only [Output.traitStub.injEq] at hst
        rw [← hst.1]
        simp [declAsInput, stubOuterOf, declSig, unsafe_fn, unsafe_fn_impl,
          ofTraitItemMethod]
  rcases hin with ⟨f, rfl⟩ | ⟨m, rfl⟩
  · exact hcore f hok
  · exact hcore (ofTraitItemMethod m) hok

/-- Witness for the C9 theorem: the concrete `exDecl`, transformed once,
is rejected with AlreadyMarked on the second application. -/
theorem add_restriction_twice_rejected_witness :
    unsafe_fn (declAsInput (outerDeclOf exDecl exBlock))
      = .error .alreadyMarked :=
  add_restriction_twice_rejected (.itemFn exDecl) exOut
    (outerDeclOf exDecl exBlock) (innerDeclOf exDecl exBlock)
    (Or.inl ⟨exDecl, rfl⟩) rfl (Or.inl rfl)

/-! ## Decimal representation is injective

`synthName` appends `Nat.repr` to a fixed reserved base string; to show
distinct counters give distinct identifiers we prove `Nat.repr` is
injective, by relating core's fuelled `toDigitsCore` to `Nat.digits`. -/

theorem toDigitsCore_eq_digits (fuel : Nat) :
    ∀ (n : Nat) (acc : List Char), 0 < n → n < fuel →
    Nat.toDigitsCore 10 fuel n acc
      = ((Nat.digits 10 n).map Nat.digitChar).reverse ++ acc := by
  induction fuel with
  | zero => intro n acc hn hf; omega
  | succ fuel ih =>
    intro n acc hn hf
    have hd : Nat.digits 10 n = n % 10 :: Nat.digits 10 (n / 10) :=
      Nat.digits_def' (by norm_num) hn
    by_cases h0 : n / 10 = 0
    · have hd0 : Nat.digits 10 n = [n % 10] := by
        rw [hd, h0, Nat.digits_zero]
      simp [Nat.toDigitsCore, h0, hd0]
    · have hpos : 0 < n / 10 := Nat.pos_of_ne_zero h0
      have hlt : n / 10 < fuel := by
        have := Nat.div_lt_self hn (by norm_num : 1 < 10)
        omega
      simp only [Nat.toDigitsCore, h0, if_false]
      rw [ih _ _ hpos hlt, hd]
      simp [List.append_assoc]

theorem toDigits_eq_digits (n : Nat) (hn : 0 < n) :
    Nat.toDigits 10 n = ((Nat.digits 10 n).map Nat.digitChar).reverse := by
  rw [Nat.toDigits, toDigitsCore_eq_digits (n + 1) n [] hn (Nat.lt_succ_self n)]
  simp

theorem digitChar_inj_of_lt (a b : Nat) (ha : a < 10) (hb : b < 10)
    (h : Nat.digitChar a = Nat.digitChar b) : a = b := by
  have key : ∀ a < 10, ∀ b < 10, Nat.digitChar a = Nat.digitChar b → a = b := by
    decide
  exact key a ha b hb h

theorem map_digitChar_inj (l1 : List Nat) :
    ∀ l2 : List Nat, (∀ d ∈ l1, d < 10) → (∀ d ∈ l2, d < 10) →
    l1.map Nat.digitChar = l2.map Nat.digitChar → l1 = l2 := by
  induction l1 with
  | nil =>
    intro l2 _ _ h
    cases l2 with
    | nil => rfl
    | cons b bs => simp at h
  | cons a as ih =>
    intro l2 h1 h2 h
    cases l2 with
    | nil => simp at h
    | cons b bs =>
      simp only [List.map_cons, List.cons.injEq] at h
      have hab := digitChar_inj_of_lt a b (h1 a (by simp)) (h2 b (by simp)) h.1
      rw [hab, ih bs (fun d hd => h1 d (by simp [hd]))
        (fun d hd => h2 d (by simp [hd])) h.2]

theorem nat_repr_inj (n m : Nat) (h : Nat.repr n = Nat.repr m) : n = m := by
  have hs : Nat.toDigits 10 n = Nat.toDigits 10 m := by
    have hdata := congrArg String.data h
    simpa [Nat.repr, List.asString] using hdata
  rcases Nat.eq_zero_or_pos n with rfl | hn
  · rcases Nat.eq_zero_or_pos m with rfl | hm
    · rfl
    · exfalso
      rw [toDigits_eq_digits m hm] at hs
      have hrev := congrArg List.reverse hs
      simp at hrev
      have hm0 : Nat.digits 10 m = [0] := by
        apply map_digitChar_inj _ _
          (fun d hd => Nat.digits_lt_base (by norm_num) hd)
          (by intro d hd; simp at hd; omega)
        rw [← hrev]
        rfl
      have := Nat.ofDigits_digits 10 m
      rw [hm0] at this
      simp [Nat.ofDigits] at this
      omega
  · rcases Nat.eq_zero_or_pos m with rfl | hm
    · exfalso
      rw [toDigits_eq_digits n hn] at hs
      have hrev := congrArg List.reverse hs
      simp at hrev
      have hn0 : Nat.digits 10 n = [0] := by
        apply map_digitChar_inj _ _
          (fun d hd => Nat.digits_lt_base (by norm_num) hd)
          (by intro d hd; simp at hd; omega)
        rw [hrev]
        rfl
      have := Nat.ofDigits_digits 10 n
      rw [hn0] at this
      simp [Nat.ofDigits] at this
      omega
    · rw [toDigits_eq_digits n hn, toDigits_eq_digits m hm] at hs
      have hrev := congrArg List.reverse hs
      simp only [List.reverse_reverse] at hrev
      have := map_digitChar_inj _ _
        (fun d hd => Nat.digits_lt_base (by norm_num) hd)
        (fun d hd => Nat.digits_lt_base (by norm_num) hd) hrev
      exact Nat.digits_inj_iff.mp this

/-- Distinct counters give distinct synthetic names. -/
theorem synthName_inj (a b : Nat) (h : synthName a = synthName b) : a = b := by
  rw [synthName, synthName] at h
  have hdata := congrArg String.data h
  rw [String.data_append, String.data_append] at hdata
  have := List.append_cancel_left hdata
  exact nat_repr_inj a b (String.ext this)

/-- A synthetic name is never the identifier `self`. -/
theorem synthName_ne_self (n : Nat) : synthName n ≠ "self" := by
  intro h
  have hlen := congrArg String.length h
  rw [synthName, String.length_append] at hlen
  have h15 : ("__unsafe_fn_arg" : String).length = 15 := rfl
  have h4 : ("self" : String).length = 4 := rfl
  omega

/-! ## Positional characterization of the walk -/

/-- The outer parameter produced for one original parameter, given the
number `n` of forwarding arguments accumulated before it. -/
def mainParamAt (n : Nat) : FnArg → FnArg
  | .receiver r m => removeMutArg (.receiver r m)
  | .typed attrs pat ty =>
    match patTopIdent pat with
    | some _ => removeMutArg (.typed attrs pat ty)
    | none => .typed attrs (.patIdent false (synthName n)) ty

/-- The forwarding argument produced for one original parameter (none
for a receiver or typed `self`). -/
def fwdNameAt (n : Nat) : FnArg → Option Ident
  | .receiver _ _ => none
  | .typed _ pat _ =>
    match patTopIdent pat with
    | some i => if i = "self" then none else some i
    | none => some (synthName n)

/-- The outer parameter list, position by position: the parameter at
`idx` is the original one transformed with the count of forwarding
arguments contributed before `idx`. -/
theorem mainParams_get? (ps : List FnArg) : ∀ n idx : Nat,
    (mainParams n ps).get? idx
      = (ps.get? idx).map
          fun it => mainParamAt (n + fwdCount (ps.take idx)) it := by
  induction ps with
  | nil => intro n idx; simp [mainParams]
  | cons it ps ih =>
    intro n idx
    cases idx with
    | zero =>
      cases it with
      | receiver r m =>
        simp [mainParams, mainParamAt, fwdCount]
      | typed attrs pat ty =>
        cases hp : patTopIdent pat with
        | some i =>
          by_cases hi : i = "self" <;>
            simp [mainParams, mainParamAt, hp, hi, fwdCount]
        | none => simp [mainParams, mainParamAt, hp, fwdCount]
    | succ j =>
      cases it with
      | receiver r m =>
        simp only [mainParams, List.get?]
        rw [ih n j]
        simp [fwdCount, fwdc, isSelfParam]
      | typed attrs pat ty =>
        cases hp : patTopIdent pat with
        | some i =>
          by_cases hi : i = "self"
          · simp only [mainParams, hp, hi, eq_self_iff_true, if_true,
              List.get?]
            rw [ih n j]
            have hsp : fwdc (FnArg.typed attrs pat ty) = 0 := by
              simp [fwdc, isSelfParam, hp, hi]
            simp [fwdCount, hsp]
          · simp only [mainParams, hp, if_neg hi, List.get?]
            rw [ih (n + 1) j]
            have hsp : fwdc (FnArg.typed attrs pat ty) = 1 := by
              simp [fwdc, isSelfParam, hp, hi]
            simp [fwdCount, hsp, Nat.add_assoc]
        | none =>
          simp only [mainParams, hp, List.get?]
          rw [ih (n + 1) j]
          have hsp : fwdc (FnArg.typed attrs pat ty) = 1 := by
            simp [fwdc, isSelfParam, hp]
          simp [fwdCount, hsp, Nat.add_assoc]

/-- One step of the forwarding-argument list. -/
theorem subArgsFrom_cons (it : FnArg) (ps : List FnArg) (n : Nat) :
    subArgsFrom n (it :: ps)
      = (fwdNameAt n it).toList ++ subArgsFrom (n + fwdc it) ps := by
  cases it with
  | receiver r m =>
    simp [subArgsFrom, fwdNameAt, fwdc, isSelfParam]
  | typed attrs pat ty =>
    cases hp : patTopIdent pat with
    | some i =>
      by_cases hi : i = "self" <;>
        simp [subArgsFrom, fwdNameAt, fwdc, isSelfParam, hp, hi]
    | none => simp [subArgsFrom, fwdNameAt, fwdc, isSelfParam, hp]

/-- The forwarding arguments, position by position: one optional entry
per original parameter, taken in original parameter order. -/
theorem subArgsFrom_eq_positions (ps : List FnArg) : ∀ n : Nat,
    subArgsFrom n ps
      = (List.range ps.length).filterMap fun idx =>
          (ps.get? idx).bind
            fun it => fwdNameAt (n + fwdCount (ps.take idx)) it := by
  induction ps with
  | nil => intro n; simp [subArgsFrom]
  | cons it ps ih =>
    intro n
    rw [subArgsFrom_cons, ih (n + fwdc it)]
    rw [List.length_cons, List.range_succ_eq_map]
    rw [List.filterMap_cons, List.filterMap_map]
    have hhead : ((it :: ps).get? 0).bind
        (fun it2 => fwdNameAt (n + fwdCount ((it :: ps).take 0)) it2)
        = fwdNameAt n it := by
      simp [fwdCount]
    have htail : ∀ j : Nat, ((it :: ps).get? (j + 1)).bind
          (fun it2 => fwdNameAt (n + fwdCount ((it :: ps).take (j + 1))) it2)
        = (ps.get? j).bind
            (fun it2 => fwdNameAt (n + fwdc it + fwdCount (ps.take j)) it2) := by
      intro j
      simp [fwdCount, Nat.add_assoc]
    have hfun : (fun idx => ((it :: ps).get? idx).bind
          (fun it2 => fwdNameAt (n + fwdCount ((it :: ps).take idx)) it2))
            ∘ Nat.succ
        = fun j => (ps.get? j).bind
            (fun it2 => fwdNameAt (n + fwdc it + fwdCount (ps.take j)) it2) := by
      funext j
      exact htail j
    rw [hfun]
    cases hfn : fwdNameAt n it with
    | none => simp [fwdCount, hfn]
    | some a => simp [fwdCount, hfn]

/-- The synthetic names one invocation issues, in parameter order,
starting from counter `n`. -/
def issuedNames : Nat → List FnArg → List Ident
  | _, [] => []
  | n, it :: rest =>
    match it with
    | .receiver _ _ => issuedNames n rest
    | .typed _ pat _ =>
      match patTopIdent pat with
      | some i =>
        if i = "self" then issuedNames n rest else issuedNames (n + 1) rest
      | none => synthName n :: issuedNames (n + 1) rest

/-- Every issued name is a synthetic name with counter at least the
starting counter. -/
theorem issuedNames_are_synth (ps : List FnArg) : ∀ n : Nat,
    ∀ name ∈ issuedNames n ps, ∃ m, n ≤ m ∧ name = synthName m := by
  induction ps with
  | nil => intro n name h; simp [issuedNames] at h
  | cons it ps ih =>
    intro n name h
    cases it with
    | receiver r m =>
      simp only [issuedNames] at h
      exact ih n name h
    | typed attrs pat ty =>
      cases hp : patTopIdent pat with
      | some i =>
        by_cases hi : i = "self"
        · simp only [issuedNames, hp, hi, if_pos rfl] at h
          exact ih n name h
        · simp only [issuedNames, hp, if_neg hi] at h
          obtain ⟨m, hm, heq⟩ := ih (n + 1) name h
          exact ⟨m, by omega, heq⟩
      | none =>
        simp only [issuedNames, hp, List.mem_cons] at h
        rcases h with rfl | h
        · exact ⟨n, le_refl n, rfl⟩
        · obtain ⟨m, hm, heq⟩ := ih (n + 1) name h
          exact ⟨m, by omega, heq⟩

/-- No two synthetic names issued within one invocation are equal. -/
theorem issuedNames_nodup (ps : List FnArg) : ∀ n : Nat,
    (issuedNames n ps).Nodup := by
  induction ps with
  | nil => intro n; simp [issuedNames]
  | cons it ps ih =>
    intro n
    cases it with
    | receiver r m => simpa only [issuedNames] using ih n
    | typed attrs pat ty =>
      cases hp : patTopIdent pat with
      | some i =>
        by_cases hi : i = "self"
        · simpa only [issuedNames, hp, hi, if_pos rfl] using ih n
        · simpa only [issuedNames, hp, if_neg hi] using ih (n + 1)
      | none =>
        simp only [issuedNames, hp]
        rw [List.nodup_cons]
        refine ⟨?_, ih (n + 1)⟩
        intro hmem
        obtain ⟨m, hm, heq⟩ := issuedNames_are_synth ps (n + 1) _ hmem
        have := synthName_inj _ _ heq
        omega

/-- The identifier `self` is never a forwarding argument. -/
theorem self_not_mem_subArgsFrom (ps : List FnArg) : ∀ n : Nat,
    "self" ∉ subArgsFrom n ps := by
  induction ps with
  | nil => intro n h; simp [subArgsFrom] at h
  | cons it ps ih =>
    intro n h
    cases it with
    | receiver r m =>
      simp only [subArgsFrom] at h
      exact ih n h
    | typed attrs pat ty =>
      cases hp : patTopIdent pat with
      | some i =>
        by_cases hi : i = "self"
        · simp only [subArgsFrom, hp, hi, if_pos rfl] at h
          exact ih n h
        · simp only [subArgsFrom, hp, if_neg hi, List.mem_cons] at h
          rcases h with h | h
          · exact hi h.symm
          · exact ih (n + 1) h
      | none =>
        simp only [subArgsFrom, hp, List.mem_cons] at h
        rcases h with h | h
        · exact synthName_ne_self n h.symm
        · exact ih (n + 1) h

/-- C2: the outer and the inner parameter list each have the same length
and order as the original parameter list — the inner list verbatim, the
outer list position by position a transform of the original parameter at
that position — and the forwarding arguments of the outer-to-inner call
appear in original parameter order: the forwarding list is the in-order
concatenation of one optional entry per original parameter. -/
theorem parameter_lists_aligned (f : FnOrMethod) (k : Kind) (out : Output)
    (block : Block)
    (hok : unsafe_fn_impl f k = .ok out)
    (hbl : f.block = some block) :
    out = .split (innerDeclOf f block) (outerDeclOf f block)
      ∧ (innerDeclOf f block).inputs = f.sig.inputs
      ∧ (outerDeclOf f block).inputs.length = f.sig.inputs.length
      ∧ (∀ idx, (outerDeclOf f block).inputs.get? idx
          = (f.sig.inputs.get? idx).map
              fun it => mainParamAt (fwdCount (f.sig.inputs.take idx)) it)
      ∧ (outerDeclOf f block).body
          = .fwdCall (dispatchOf f.sig block) (innerNameOf f.sig.ident)
              (typeParamIdents f.sig.generics) (subArgsFrom 0 f.sig.inputs)
      ∧ subArgsFrom 0 f.sig.inputs
          = (List.range f.sig.inputs.length).filterMap
              fun idx => (f.sig.inputs.get? idx).bind
                fun it => fwdNameAt (fwdCount (f.sig.inputs.take idx)) it := by
  refine ⟨unsafe_fn_impl_ok_shape f k out block hok hbl, rfl,
    mainParams_length _ _, ?_, rfl, ?_⟩
  · intro idx
    have h := mainParams_get? f.sig.inputs 0 idx
    simpa using h
  · have h := subArgsFrom_eq_positions f.sig.inputs 0
    simpa using h

/-- Witness for the C2 theorem at the concrete `exDecl`. -/
theorem parameter_lists_aligned_witness :
    (unsafe_fn_impl exDecl Kind.unsafeFn = .ok exOut
        ∧ exDecl.block = some exBlock)
      ∧ (innerDeclOf exDecl exBlock).inputs = exDecl.sig.inputs
      ∧ (outerDeclOf exDecl exBlock).inputs.length
          = exDecl.sig.inputs.length :=
  ⟨⟨rfl, rfl⟩,
    (parameter_lists_aligned exDecl Kind.unsafeFn exOut exBlock rfl rfl).2.1,
    (parameter_lists_aligned exDecl Kind.unsafeFn exOut exBlock rfl rfl).2.2.1⟩

/-- A concrete declaration with a single bare-wildcard parameter. -/
def exWildSig : Signature :=
  { constness := false, asyncness := false, unsafety := false, abi := none
    ident := "wildfn"
    generics := { params := [], whereClause := none }
    inputs := [.typed [] .wild (.ident "u32")]
    variadic := false, output := .nil }

def exWildDecl : FnOrMethod :=
  { attrs := [], vis := .inherited, sig := exWildSig
    block := some exBlock, semi := false }

/-- Counterexample to C4 as stated: on a function whose only parameter is
a bare wildcard, the transform does add a forwarding argument for it
(the synthetic name reaches the call's argument list, which the claim
says stays empty). -/
theorem wildcard_forwarded_counterexample :
    unsafe_fn (.itemFn exWildDecl)
        = .ok (.split (innerDeclOf exWildDecl exBlock)
            (outerDeclOf exWildDecl exBlock))
      ∧ exWildDecl.sig.inputs.get? 0 = some (.typed [] .wild (.ident "u32"))
      ∧ (outerDeclOf exWildDecl exBlock).body
          = .fwdCall Dispatch.plain (innerNameOf "wildfn") [] [synthName 0]
      ∧ ¬ subArgsFrom 0 exWildDecl.sig.inputs = [] :=
  ⟨rfl, rfl, rfl, by decide⟩

/-- C4 amended: a parameter whose pattern is entirely discarded is kept
at its original position in the inner signature verbatim; the outer
signature keeps a parameter of the same type at the same position, but
renamed to a synthetic identifier, and that synthetic name IS appended to
the forwarding-argument list (the inner wildcard simply discards the
forwarded value). -/
theorem wildcard_param_positions (f : FnOrMethod) (k : Kind) (out : Output)
    (block : Block) (idx : Nat) (attrs : List Ident) (ty : Ty)
    (hok : unsafe_fn_impl f k = .ok out)
    (hbl : f.block = some block)
    (hidx : f.sig.inputs.get? idx = some (.typed attrs .wild ty)) :
    out = .split (innerDeclOf f block) (outerDeclOf f block)
      ∧ (innerDeclOf f block).inputs.get? idx
          = some (.typed attrs .wild ty)
      ∧ (outerDeclOf f block).inputs.get? idx
          = some (.typed attrs (.patIdent false
              (synthName (fwdCount (f.sig.inputs.take idx)))) ty)
      ∧ synthName (fwdCount (f.sig.inputs.take idx))
          ∈ subArgsFrom 0 f.sig.inputs := by
  have hidx2 : f.sig.inputs[idx]? = some (FnArg.typed attrs .wild ty) := by
    simpa using hidx
  refine ⟨unsafe_fn_impl_ok_shape f k out block hok hbl, hidx, ?_, ?_⟩
  · show (mainParams 0 f.sig.inputs).get? idx = _
    rw [mainParams_get?]
    simp [hidx2, mainParamAt, patTopIdent]
  · rw [subArgsFrom_eq_positions]
    apply List.mem_filterMap.mpr
    refine ⟨idx, List.mem_range.mpr ?_, ?_⟩
    · exact (List.get?_eq_some.mp hidx).1
    · simp [hidx2, fwdNameAt, patTopIdent]

/-- Witness for the C4 amended theorem at `exWildDecl`. -/
theorem wildcard_param_positions_witness :
    (unsafe_fn_impl exWildDecl Kind.unsafeFn
          = .ok (.split (innerDeclOf exWildDecl exBlock)
              (outerDeclOf exWildDecl exBlock))
        ∧ exWildDecl.sig.inputs.get? 0
            = some (.typed [] .wild (.ident "u32")))
      ∧ (outerDeclOf exWildDecl exBlock).inputs.get? 0
          = some (.typed [] (.patIdent false (synthName 0)) (.ident "u32"))
      ∧ synthName 0 ∈ subArgsFrom 0 exWildDecl.sig.inputs :=
  ⟨⟨rfl, rfl⟩,
    by simpa using (wildcard_param_positions exWildDecl Kind.unsafeFn
      (.split (innerDeclOf exWildDecl exBlock)
        (outerDeclOf exWildDecl exBlock)) exBlock 0 [] (.ident "u32")
      rfl rfl rfl).2.2.1,
    by simpa using (wildcard_param_positions exWildDecl Kind.unsafeFn
      (.split (innerDeclOf exWildDecl exBlock)
        (outerDeclOf exWildDecl exBlock)) exBlock 0 [] (.ident "u32")
      rfl rfl rfl).2.2.2⟩

/-- Counterexample to C5 as stated: in `exDecl` the destructuring (pair)
parameter is the first and only parameter flagged as needing a synthetic
name, yet it receives `__unsafe_fn_arg1`, not `__unsafe_fn_arg0`: the
sequence number is the count of all forwarding arguments accumulated so
far (the simple parameter `x` before it counts), not the count of flagged
parameters. -/
theorem synthetic_numbering_counterexample :
    exDecl.sig.inputs.get? 1
        = some (.typed [] (.pair (.patIdent false "a") (.patIdent true "b"))
            (.ident "Pair"))
      ∧ patTopIdent (.pair (.patIdent false "a") (.patIdent true "b")) = none
      ∧ issuedNames 0 exDecl.sig.inputs = [synthName 1]
      ∧ synthName 1 ≠ synthName 0 :=
  ⟨rfl, rfl, rfl, by decide⟩

/-- C5 amended: every parameter flagged as needing a synthetic name
receives `reserved_prefix ++ sequence_number` where the sequence number
is the number of forwarding arguments accumulated before it in parameter
order (simple forwarded parameters count too, receivers and `self` do
not); the counter restarts at 0 for each invocation (the walk starts at
counter 0), and no two synthetic names issued within one invocation are
equal. -/
theorem synthetic_name_assignment (f : FnOrMethod) (k : Kind) (out : Output)
    (block : Block) (idx : Nat) (attrs : List Ident) (pat : Pat) (ty : Ty)
    (hok : unsafe_fn_impl f k = .ok out)
    (hbl : f.block = some block)
    (hidx : f.sig.inputs.get? idx = some (.typed attrs pat ty))
    (hflag : patTopIdent pat = none) :
    out = .split (innerDeclOf f block) (outerDeclOf f block)
      ∧ (outerDeclOf f block).inputs.get? idx
          = some (.typed attrs (.patIdent false
              (synthName (fwdCount (f.sig.inputs.take idx)))) ty)
      ∧ synthName (fwdCount (f.sig.inputs.take idx))
          ∈ subArgsFrom 0 f.sig.inputs
      ∧ (issuedNames 0 f.sig.inputs).Nodup := by
  have hidx2 : f.sig.inputs[idx]? = some (FnArg.typed attrs pat ty) := by
    simpa using hidx
  refine ⟨unsafe_fn_impl_ok_shape f k out block hok hbl, ?_, ?_,
    issuedNames_nodup f.sig.inputs 0⟩
  · show (mainParams 0 f.sig.inputs).get? idx = _
    rw [mainParams_get?]
    simp [hidx2, mainParamAt, hflag]
  · rw [subArgsFrom_eq_positions]
    apply List.mem_filterMap.mpr
    refine ⟨idx, List.mem_range.mpr ?_, ?_⟩
    · exact (List.get?_eq_some.mp hidx).1
    · simp [hidx2, fwdNameAt, hflag]

/-- Witness for the C5 amended theorem at `exDecl` (the pair parameter at
position 1, synthetic counter 1 because `x` was forwarded before it). -/
theorem synthetic_name_assignment_witness :
    (unsafe_fn_impl exDecl Kind.unsafeFn = .ok exOut
        ∧ patTopIdent (.pair (.patIdent false "a") (.patIdent true "b"))
            = none)
      ∧ (outerDeclOf exDecl exBlock).inputs.get? 1
          = some (.typed [] (.patIdent false (synthName 1)) (.ident "Pair"))
      ∧ (issuedNames 0 exDecl.sig.inputs).Nodup :=
  ⟨⟨rfl, rfl⟩,
    by simpa using (synthetic_name_assignment exDecl Kind.unsafeFn exOut
      exBlock 1 []
      (.pair (.patIdent false "a") (.patIdent true "b")) (.ident "Pair")
      rfl rfl rfl rfl).2.1,
    (synthetic_name_assignment exDecl Kind.unsafeFn exOut exBlock 1 []
      (.pair (.patIdent false "a") (.patIdent true "b")) (.ident "Pair")
      rfl rfl rfl rfl).2.2.2⟩

/-- C10: a typed parameter whose top-level binding identifier is
literally `self` (e.g. `self: Box<Self>`) is treated as a receiver: the
outer body dispatches the inner call as `self.innerName(...)`, `self` is
not among the forwarding arguments, the typed self parameter is kept
verbatim at its position in the inner signature, and its outer copy at
the same position is the mutability-stripped original. -/
theorem typed_self_is_receiver (f : FnOrMethod) (k : Kind) (out : Output)
    (block : Block) (idx : Nat) (attrs : List Ident) (pat : Pat) (ty : Ty)
    (hok : unsafe_fn_impl f k = .ok out)
    (hbl : f.block = some block)
    (hidx : f.sig.inputs.get? idx = some (.typed attrs pat ty))
    (hpat : patTopIdent pat = some "self") :
    out = .split (innerDeclOf f block) (outerDeclOf f block)
      ∧ (outerDeclOf f block).body
          = .fwdCall Dispatch.selfDot (innerNameOf f.sig.ident)
              (typeParamIdents f.sig.generics) (subArgsFrom 0 f.sig.inputs)
      ∧ "self" ∉ subArgsFrom 0 f.sig.inputs
      ∧ (innerDeclOf f block).inputs.get? idx
          = some (.typed attrs pat ty)
      ∧ (outerDeclOf f block).inputs.get? idx
          = some (.typed attrs (removeMutPat pat) ty) := by
  have hmem : FnArg.typed attrs pat ty ∈ f.sig.inputs :=
    List.get?_mem hidx
  have hany : f.sig.inputs.any isSelfParam = true :=
    List.any_eq_true.mpr ⟨_, hmem, by simp [isSelfParam, hpat]⟩
  refine ⟨unsafe_fn_impl_ok_shape f k out block hok hbl, ?_,
    self_not_mem_subArgsFrom f.sig.inputs 0, hidx, ?_⟩
  · simp [outerDeclOf, dispatchOf, hany]
  · have hidx2 : f.sig.inputs[idx]? = some (FnArg.typed attrs pat ty) := by
      simpa using hidx
    show (mainParams 0 f.sig.inputs).get? idx = _
    rw [mainParams_get?]
    simp [hidx2, mainParamAt, hpat, removeMutArg]

/-- A concrete method taking `self` by typed parameter. -/
def exSelfSig : Signature :=
  { constness := false, asyncness := false, unsafety := false, abi := none
    ident := "i_plus_box"
    generics := { params := [], whereClause := none }
    inputs := [.typed [] (.patIdent false "self") (.ident "BoxSelf"),
               .typed [] (.patIdent false "plus") (.ident "u32")]
    variadic := false, output := .nil }

def exSelfDecl : FnOrMethod :=
  { attrs := [], vis := .inherited, sig := exSelfSig
    block := some exBlock, semi := false }

def exSelfOut : Output :=
  .split (innerDeclOf exSelfDecl exBlock) (outerDeclOf exSelfDecl exBlock)

/-- Witness for the C10 theorem at `exSelfDecl`. -/
theorem typed_self_is_receiver_witness :
    (unsafe_fn_impl exSelfDecl Kind.unsafeFn = .ok exSelfOut
        ∧ exSelfDecl.sig.inputs.get? 0
            = some (.typed [] (.patIdent false "self") (.ident "BoxSelf")))
      ∧ (outerDeclOf exSelfDecl exBlock).body
          = .fwdCall Dispatch.selfDot (innerNameOf exSelfDecl.sig.ident)
              (typeParamIdents exSelfDecl.sig.generics)
              (subArgsFrom 0 exSelfDecl.sig.inputs)
      ∧ "self" ∉ subArgsFrom 0 exSelfDecl.sig.inputs
      ∧ subArgsFrom 0 exSelfDecl.sig.inputs = ["plus"] :=
  ⟨⟨rfl, rfl⟩,
    (typed_self_is_receiver exSelfDecl Kind.unsafeFn exSelfOut exBlock 0 []
      (.patIdent false "self") (.ident "BoxSelf") rfl rfl rfl rfl).2.1,
    (typed_self_is_receiver exSelfDecl Kind.unsafeFn exSelfOut exBlock 0 []
      (.patIdent false "self") (.ident "BoxSelf") rfl rfl rfl rfl).2.2.1,
    by decide⟩

/-- A concrete trait with one bodyless, unmarked member. -/
def exTraitMemberSig : Signature :=
  { constness := false, asyncness := false, unsafety := false, abi := none
    ident := "foo"
    generics := { params := [], whereClause := none }
    inputs := [.receiver true false]
    variadic := false, output := .nil }

def exTraitMember : TraitItemMethod :=
  { attrs := [], sig := exTraitMemberSig, defaultBlock := none
    semi := true }

def exTrait : ItemTrait :=
  { unsafety := false, ident := "Marker", items := [exTraitMember] }

/-- Counterexample to C6 as stated: applied to a whole trait, the
transform emits `unsafe trait ...` — the trait itself gets the marker —
but its members are untouched: the member of `exTrait` still lacks the
restriction marker in the output. -/
theorem trait_members_not_marked_counterexample :
    unsafe_fn (.itemTrait exTrait)
        = .ok (.unsafeTrait { exTrait with unsafety := true })
      ∧ (∃ t2, unsafe_fn (.itemTrait exTrait) = .ok (.unsafeTrait t2)
          ∧ ∃ m ∈ t2.items, m.sig.unsafety = false) :=
  ⟨rfl, ⟨{ exTrait with unsafety := true }, rfl, exTraitMember,
    by simp [exTrait], rfl⟩⟩

/-- C6 amended: applied to a whole interface (trait) definition, the
transform marks the interface itself as restricted (`unsafe trait`); the
member list is returned unchanged, so no member is individually marked
and no member is split. -/
theorem whole_trait_marked (t : ItemTrait) :
    unsafe_fn (.itemTrait t)
        = .ok (.unsafeTrait { t with unsafety := true })
      ∧ ∀ t2, unsafe_fn (.itemTrait t) = .ok (.unsafeTrait t2)
          → t2.items = t.items ∧ t2.unsafety = true := by
  refine ⟨rfl, ?_⟩
  intro t2 h
  simp only [unsafe_fn, Except.ok.injEq, Output.unsafeTrait.injEq] at h
  rw [← h]
  exact ⟨rfl, rfl⟩

/-- C7: for a declaration without a receiver or typed-`self` parameter,
the `Self` scan covers the signature and the body and does not descend
into nested item definitions (the visitor yields false on an `item` node
whatever it contains), and the outer call is dispatched as
`Self::innerName(...)` exactly when that scan finds the token, otherwise
as a plain free-function call. -/
theorem self_scan_dispatch (f : FnOrMethod) (k : Kind) (out : Output)
    (block : Block)
    (hok : unsafe_fn_impl f k = .ok out)
    (hbl : f.block = some block)
    (hnoself : f.sig.inputs.any isSelfParam = false) :
    out = .split (innerDeclOf f block) (outerDeclOf f block)
      ∧ (∀ u : Tok, tokHasSelf (Tok.item u) = false)
      ∧ ((sigHasSelf f.sig || tokHasSelf block) = true →
          (outerDeclOf f block).body
            = .fwdCall Dispatch.selfQual (innerNameOf f.sig.ident)
                (typeParamIdents f.sig.generics)
                (subArgsFrom 0 f.sig.inputs))
      ∧ ((sigHasSelf f.sig || tokHasSelf block) = false →
          (outerDeclOf f block).body
            = .fwdCall Dispatch.plain (innerNameOf f.sig.ident)
                (typeParamIdents f.sig.generics)
                (subArgsFrom 0 f.sig.inputs)) := by
  refine ⟨unsafe_fn_impl_ok_shape f k out block hok hbl,
    fun u => rfl, ?_, ?_⟩
  · intro h
    simp [outerDeclOf, dispatchOf, hnoself, h]
  · intro h
    simp [outerDeclOf, dispatchOf, hnoself, h]

/-- An associated function whose body names `Self` directly. -/
def exSelfRefBlock : Block := .seq (.ident "Self") (.ident "default")

def exSelfRefSig : Signature :=
  { constness := false, asyncness := false, unsafety := false, abi := none
    ident := "new"
    generics := { params := [], whereClause := none }
    inputs := []
    variadic := false, output := .nil }

def exSelfRefDecl : FnOrMethod :=
  { attrs := [], vis := .inherited, sig := exSelfRefSig
    block := some exSelfRefBlock, semi := false }

/-- A function whose body names `Self` only inside a nested item. -/
def exNestedBlock : Block := .seq (.item (.ident "Self")) (.ident "x")

def exNestedSig : Signature :=
  { constness := false, asyncness := false, unsafety := false, abi := none
    ident := "deref_ptr"
    generics := { params := [], whereClause := none }
    inputs := [.typed [] (.patIdent false "p") (.ident "ptr")]
    variadic := false, output := .nil }

def exNestedDecl : FnOrMethod :=
  { attrs := [], vis := .inherited, sig := exNestedSig
    block := some exNestedBlock, semi := false }

/-- Witness for the C7 theorem: a `Self`-using body gets the qualified
dispatch, a body whose only `Self` is inside a nested item gets the
plain dispatch. -/
theorem self_scan_dispatch_witness :
    (outerDeclOf exSelfRefDecl exSelfRefBlock).body
        = .fwdCall Dispatch.selfQual (innerNameOf "new") [] []
      ∧ (outerDeclOf exNestedDecl exNestedBlock).body
        = .fwdCall Dispatch.plain (innerNameOf "deref_ptr") [] ["p"] :=
  ⟨(self_scan_dispatch exSelfRefDecl Kind.unsafeFn
      (.split (innerDeclOf exSelfRefDecl exSelfRefBlock)
        (outerDeclOf exSelfRefDecl exSelfRefBlock)) exSelfRefBlock
      rfl rfl rfl).2.2.1 (by decide),
    (self_scan_dispatch exNestedDecl Kind.unsafeFn
      (.split (innerDeclOf exNestedDecl exNestedBlock)
        (outerDeclOf exNestedDecl exNestedBlock)) exNestedBlock
      rfl rfl rfl).2.2.2 (by decide)⟩

/-- C8: for a bodyless interface method no split is performed: the output
is the original signature with the restriction marker added (parameters
untouched, no body), plus a placeholder declaration whose name is the
mechanically derived inner name, whose body is an unconditional panic,
and whose where clause gains `Self: Sized`; neither emitted declaration
contains any call, so the placeholder is never invoked by the emitted
code. -/
theorem bodyless_method_stub (f : FnOrMethod) (k : Kind) (out : Output)
    (hok : unsafe_fn_impl f k = .ok out)
    (hbl : f.block = none) :
    out = .traitStub (stubOuterOf f) (stubPlaceholderOf f)
      ∧ (stubOuterOf f).unsafety = true
      ∧ (stubOuterOf f).ident = f.sig.ident
      ∧ (stubOuterOf f).inputs = f.sig.inputs
      ∧ (stubOuterOf f).body = DeclBody.noBody
      ∧ (stubPlaceholderOf f).ident = innerNameOf f.sig.ident
      ∧ (stubPlaceholderOf f).inputs = f.sig.inputs
      ∧ (stubPlaceholderOf f).body = DeclBody.panicCall
      ∧ (stubPlaceholderOf f).generics = addSelfSized f.sig.generics
      ∧ (∀ d c turbo args,
          (stubOuterOf f).body ≠ DeclBody.fwdCall d c turbo args)
      ∧ (∀ d c turbo args,
          (stubPlaceholderOf f).body ≠ DeclBody.fwdCall d c turbo args) :=
  ⟨unsafe_fn_impl_ok_stub_shape f k out hok hbl, rfl, rfl, rfl, rfl, rfl,
    rfl, rfl, rfl,
    fun _ _ _ _ h => DeclBody.noConfusion h,
    fun _ _ _ _ h => DeclBody.noConfusion h⟩

/-- A concrete bodyless trait method. -/
def exBodylessDecl : FnOrMethod :=
  { attrs := [], vis := .inherited, sig := exTraitMemberSig
    block := none, semi := true }

/-- Witness for the C8 theorem at `exBodylessDecl`. -/
theorem bodyless_method_stub_witness :
    (unsafe_fn_impl exBodylessDecl Kind.unsafeFn
          = .ok (.traitStub (stubOuterOf exBodylessDecl)
              (stubPlaceholderOf exBodylessDecl))
        ∧ exBodylessDecl.block = none)
      ∧ (stubOuterOf exBodylessDecl).unsafety = true
      ∧ (stubPlaceholderOf exBodylessDecl).ident = innerNameOf "foo"
      ∧ (stubPlaceholderOf exBodylessDecl).body = DeclBody.panicCall :=
  ⟨⟨rfl, rfl⟩,
    (bodyless_method_stub exBodylessDecl Kind.unsafeFn
      (.traitStub (stubOuterOf exBodylessDecl)
        (stubPlaceholderOf exBodylessDecl)) rfl rfl).2.1,
    (bodyless_method_stub exBodylessDecl Kind.unsafeFn
      (.traitStub (stubOuterOf exBodylessDecl)
        (stubPlaceholderOf exBodylessDecl)) rfl rfl).2.2.2.2.2.1,
    (bodyless_method_stub exBodylessDecl Kind.unsafeFn
      (.traitStub (stubOuterOf exBodylessDecl)
        (stubPlaceholderOf exBodylessDecl)) rfl rfl).2.2.2.2.2.2.2.1⟩

end UnsafeFnModel
